import Mathlib

/-!
Shallow embedding of the shared-memory IPC bus (src/lib.rs) and proofs
about its write/read ring buffer, pending-bit notification protocol and
drain loop.  Fixed-size arrays are modelled as total functions from the
index type to the element type; the POSIX semaphore is modelled by its
counter value.  Machine integers carry no overflow in the modelled
operations (sequence numbers are only stored and compared), so they are
modelled as Nat; 64-bit-ness of the pending words is carried as an
explicit bound where a proof needs it.
-/

namespace IpcBus

/-- Constant from src/lib.rs line 5. -/
def NUM_EXCHANGES : Nat := 5

/-- Constant from src/lib.rs line 6. -/
def NUM_MARKETS : Nat := 2

/-- Constant from src/lib.rs line 7. -/
def NUM_SYMBOLS : Nat := 30

/-- Constant from src/lib.rs line 8. -/
def NUM_CHANNELS : Nat := 2

/-- Number of topics (600 in the source). -/
def NUM_TOPICS : Nat := NUM_EXCHANGES * NUM_MARKETS * NUM_SYMBOLS * NUM_CHANNELS

/-- Ring depth per topic. -/
def SLOTS_PER_TOPIC : Nat := 10

/-- Total number of message slots in the journal. -/
def JOURNAL_SIZE : Nat := NUM_TOPICS * SLOTS_PER_TOPIC

/-- Maximum payload length in bytes. -/
def DATA_SIZE : Nat := 1024

/-- Number of 64-bit pending words: ceil(NUM_TOPICS / 64). -/
def BITWORDS : Nat := (NUM_TOPICS + 63) / 64

/-- A message slot: sequence number, fixed 1024-byte data array (modelled
as a function from byte index to byte value) and the used length. -/
structure Message where
  seq : Nat
  data : Nat → Nat
  data_len : Nat

/-- Message::default(): zero seq, zeroed data array, zero length. -/
def Message.default : Message :=
  { seq := 0, data := fun _ => 0, data_len := 0 }

/-- The shared journal: JOURNAL_SIZE message slots followed by BITWORDS
pending bit-words, both modelled as index functions. -/
structure Journal where
  slots : Nat → Message
  pending_bits : Nat → Nat

/-- A bus handle: the mapped journal plus the named semaphore, modelled
by its counter value. -/
structure Bus where
  journal : Journal
  sem : Nat

/-- The journal as zero-filled by the creating branch of open_or_create:
every slot is the all-zero message and every pending word is 0. -/
def freshJournal : Journal :=
  { slots := fun _ => Message.default, pending_bits := fun _ => 0 }

/-- The bus produced by the freshly-created branch of Bus::open_or_create:
a zero-filled journal and a semaphore opened with initial count 0. -/
def open_or_create_fresh : Bus :=
  { journal := freshJournal, sem := 0 }

/-- Bus::write: builds a Message with the payload truncated to DATA_SIZE
bytes and stores it at slot topic_id * SLOTS_PER_TOPIC + seq % SLOTS_PER_TOPIC. -/
def Bus.write (b : Bus) (topic_id : Nat) (seq : Nat) (data : List Nat) : Bus :=
  let topic_offset := topic_id * SLOTS_PER_TOPIC
  let idx := topic_offset + seq % SLOTS_PER_TOPIC
  let len := min data.length DATA_SIZE
  let msg : Message :=
    { seq := seq
      data := fun i => if i < len then data.getD i 0 else 0
      data_len := len }
  { b with journal :=
      { b.journal with slots := fun j => if j = idx then msg else b.journal.slots j } }

/-- Bus::read: loads the slot at topic_id * SLOTS_PER_TOPIC + seq % SLOTS_PER_TOPIC
and returns it only when its stored seq equals the requested seq. -/
def Bus.read (b : Bus) (topic_id : Nat) (seq : Nat) : Option Message :=
  let topic_offset := topic_id * SLOTS_PER_TOPIC
  let idx := topic_offset + seq % SLOTS_PER_TOPIC
  let msg := b.journal.slots idx
  if msg.seq = seq then some msg else none

/-- Bus::get_latest_seq: scans the SLOTS_PER_TOPIC slots of the topic and
keeps the largest seq seen, starting from 0. -/
def Bus.get_latest_seq (b : Bus) (topic_id : Nat) : Nat :=
  let topic_offset := topic_id * SLOTS_PER_TOPIC
  (List.range SLOTS_PER_TOPIC).foldl
    (fun latest i =>
      let msg := b.journal.slots (topic_offset + i)
      if msg.seq > latest then msg.seq else latest)
    0

/-- Bus::notify: fetch_or the topic's bit into its pending word; post the
semaphore only when the bit transitioned from 0 to 1. -/
def Bus.notify (b : Bus) (topic_id : Nat) : Bus :=
  let word_idx := topic_id / 64
  let bit := 1 <<< (topic_id % 64)
  let prev := b.journal.pending_bits word_idx
  let b' : Bus :=
    { b with journal :=
        { b.journal with pending_bits :=
            fun w => if w = word_idx then prev ||| bit else b.journal.pending_bits w } }
  if prev &&& bit = 0 then { b' with sem := b'.sem + 1 } else b'

/-- u64::trailing_zeros on the Nat model: 64 on 0 (as in Rust for u64),
otherwise the number of low zero bits. -/
def trailingZeros : Nat → Nat
  | 0 => 64
  | n + 1 =>
    if (n + 1) % 2 = 1 then 0 else trailingZeros ((n + 1) / 2) + 1
decreasing_by exact Nat.div_lt_self (Nat.succ_pos n) (by omega)

/-- The inner loop of Bus::drain_pending_mask: repeatedly take the lowest
set bit position (bits.trailing_zeros) and clear it (bits &= bits - 1),
collecting the positions in extraction order. -/
def setBits (bits : Nat) : List Nat :=
  if h : bits = 0 then []
  else trailingZeros bits :: setBits (bits &&& (bits - 1))
termination_by bits
decreasing_by
  exact Nat.lt_of_le_of_lt Nat.and_le_right (Nat.sub_lt (Nat.pos_of_ne_zero h) Nat.one_pos)

/-- The word loop of Bus::drain_pending_mask starting at word w for count
more words: swap each pending word to zero, mask the captured bits, and
emit topic ids w * 64 + bit position in extraction order.  Returns the
final bus and the list of callback arguments in call order. -/
def Bus.drainWords (b : Bus) (mask : Nat → Nat) (w : Nat) : Nat → Bus × List Nat
  | 0 => (b, [])
  | count + 1 =>
    let bits := b.journal.pending_bits w
    let b' : Bus :=
      { b with journal :=
          { b.journal with pending_bits :=
              fun w' => if w' = w then 0 else b.journal.pending_bits w' } }
    let emitted := (setBits (bits &&& mask w)).map (fun tz => w * 64 + tz)
    let res := b'.drainWords mask (w + 1) count
    (res.1, emitted ++ res.2)

/-- Bus::drain_pending_mask: run the word loop over all BITWORDS words. -/
def Bus.drain_pending_mask (b : Bus) (mask : Nat → Nat) : Bus × List Nat :=
  b.drainWords mask 0 BITWORDS

/-- N consecutive calls of Bus::notify on the same topic. -/
def Bus.notifyN (b : Bus) (t : Nat) : Nat → Bus
  | 0 => b
  | n + 1 => (b.notify t).notifyN t n

/-- A sequence of writes (topic, seq, payload) applied in order. -/
def Bus.writeList (b : Bus) (ws : List (Nat × Nat × List Nat)) : Bus :=
  ws.foldl (fun acc e => acc.write e.1 e.2.1 e.2.2) b

/-- The usize modulus on the 64-bit targets the crate runs on: release
builds compile integer overflow to wrapping modulo this value. -/
def USIZE : Nat := 2 ^ 64

/-- Bus::write as compiled in a release build: the slot index is usize
arithmetic, so the multiplication and addition wrap modulo 2^64
(overflow checks off), and the slot store goes through array indexing,
whose mandatory bounds check panics (modelled as none) exactly when the
wrapped index is outside the JOURNAL_SIZE slots. -/
def Bus.writeRelease (b : Bus) (topic_id : Nat) (seq : Nat) (data : List Nat) :
    Option Bus :=
  let idx := (topic_id * SLOTS_PER_TOPIC % USIZE + seq % SLOTS_PER_TOPIC) % USIZE
  let len := min data.length DATA_SIZE
  let msg : Message :=
    { seq := seq
      data := fun i => if i < len then data.getD i 0 else 0
      data_len := len }
  if idx < JOURNAL_SIZE then
    some { b with journal :=
        { b.journal with slots := fun j => if j = idx then msg else b.journal.slots j } }
  else none

/-- Bus::read as compiled in a release build: wrapping usize index
arithmetic, and the slot load panics (none) exactly when the wrapped
index is outside the JOURNAL_SIZE slots. -/
def Bus.readRelease (b : Bus) (topic_id : Nat) (seq : Nat) :
    Option (Option Message) :=
  let idx := (topic_id * SLOTS_PER_TOPIC % USIZE + seq % SLOTS_PER_TOPIC) % USIZE
  if idx < JOURNAL_SIZE then
    let msg := b.journal.slots idx
    some (if msg.seq = seq then some msg else none)
  else none

/-- Bus::get_latest_seq as compiled in a release build: the topic offset
and each per-slot index wrap modulo 2^64, and each slot load of the scan
panics (none) exactly when its wrapped index is outside the journal. -/
def Bus.get_latest_seqRelease (b : Bus) (topic_id : Nat) : Option Nat :=
  let topic_offset := topic_id * SLOTS_PER_TOPIC % USIZE
  (List.range SLOTS_PER_TOPIC).foldl
    (fun acc i =>
      acc.bind fun latest =>
        if (topic_offset + i) % USIZE < JOURNAL_SIZE then
          let msg := b.journal.slots ((topic_offset + i) % USIZE)
          some (if msg.seq > latest then msg.seq else latest)
        else none)
    (some 0)

/-- Bus::notify with the debug_assert made explicit: when debug assertions
are compiled in, an out-of-range topic id panics (none); otherwise the
unchecked body runs for any topic id. -/
def Bus.notifyDbg (debugAssertions : Bool) (b : Bus) (topic_id : Nat) : Option Bus :=
  if debugAssertions = true ∧ NUM_TOPICS ≤ topic_id then none
  else some (b.notify topic_id)

theorem setBits_zero : setBits 0 = [] := by
  rw [setBits]
  rfl

theorem setBits_of_ne {bits : Nat} (h : bits ≠ 0) :
    setBits bits = trailingZeros bits :: setBits (bits &&& (bits - 1)) := by
  conv_lhs => rw [setBits]
  rw [dif_neg h]

theorem trailingZeros_odd {n : Nat} (h : n % 2 = 1) :
    trailingZeros n = 0 := by
  obtain ⟨m, rfl⟩ : ∃ m, n = m + 1 := ⟨n - 1, by omega⟩
  rw [trailingZeros, if_pos h]

theorem trailingZeros_even {n : Nat} (hn : n ≠ 0) (h : n % 2 = 0) :
    trailingZeros n = trailingZeros (n / 2) + 1 := by
  obtain ⟨m, rfl⟩ : ∃ m, n = m + 1 := ⟨n - 1, by omega⟩
  rw [trailingZeros, if_neg (by omega)]

theorem and_pred_of_odd {n : Nat} (h : n % 2 = 1) : n &&& (n - 1) = n - 1 := by
  obtain ⟨k, rfl⟩ : ∃ k, n = 2 * k + 1 := ⟨n / 2, by omega⟩
  have h1 : 2 * k + 1 - 1 = 2 * k := by omega
  rw [h1]
  apply Nat.eq_of_testBit_eq
  intro i
  rw [Nat.testBit_and]
  cases i with
  | zero =>
    have e1 : (2 * k + 1) % 2 = 1 := by omega
    have e2 : (2 * k) % 2 = 0 := by omega
    simp [Nat.testBit_zero, e1, e2]
  | succ i =>
    rw [Nat.testBit_add_one, Nat.testBit_add_one]
    have d1 : (2 * k + 1) / 2 = k := by omega
    have d2 : 2 * k / 2 = k := by omega
    rw [d1, d2]
    exact Bool.and_self _

theorem and_pred_of_even {m : Nat} (hm : m ≠ 0) :
    (2 * m) &&& (2 * m - 1) = 2 * ((m) &&& (m - 1)) := by
  have h1 : 2 * m - 1 = 2 * (m - 1) + 1 := by omega
  rw [h1]
  apply Nat.eq_of_testBit_eq
  intro i
  rw [Nat.testBit_and]
  cases i with
  | zero =>
    have e1 : (2 * m) % 2 = 0 := by omega
    have e2 : (2 * ((m) &&& (m - 1))) % 2 = 0 := by omega
    simp [Nat.testBit_zero, e1, e2]
  | succ i =>
    rw [Nat.testBit_add_one, Nat.testBit_add_one, Nat.testBit_add_one]
    have d1 : 2 * m / 2 = m := by omega
    have d2 : (2 * (m - 1) + 1) / 2 = m - 1 := by omega
    have d3 : 2 * ((m) &&& (m - 1)) / 2 = (m) &&& (m - 1) := by omega
    rw [d1, d2, d3, Nat.testBit_and]

theorem setBits_two_mul (m : Nat) : setBits (2 * m) = (setBits m).map (· + 1) := by
  induction m using Nat.strong_induction_on with
  | _ m ih =>
    by_cases hm : m = 0
    · subst hm
      rw [Nat.mul_zero, setBits_zero]
      rfl
    · have h2m : 2 * m ≠ 0 := by omega
      rw [setBits_of_ne h2m, setBits_of_ne hm,
          trailingZeros_even h2m (by omega), and_pred_of_even hm]
      have hd : 2 * m / 2 = m := by omega
      rw [hd, ih (m &&& (m - 1)) (Nat.lt_of_le_of_lt Nat.and_le_right (by omega))]
      rfl

theorem setBits_even {n : Nat} (h : n % 2 = 0) :
    setBits n = (setBits (n / 2)).map (· + 1) := by
  have h1 : n = 2 * (n / 2) := by omega
  conv_lhs => rw [h1]
  rw [setBits_two_mul]

theorem setBits_odd {n : Nat} (h : n % 2 = 1) :
    setBits n = 0 :: (setBits (n / 2)).map (· + 1) := by
  have hn : n ≠ 0 := by omega
  rw [setBits_of_ne hn, trailingZeros_odd h, and_pred_of_odd h]
  have h1 : n - 1 = 2 * (n / 2) := by omega
  rw [h1, setBits_two_mul]

theorem mem_setBits (n : Nat) : ∀ i, (i ∈ setBits n ↔ n.testBit i = true) := by
  induction n using Nat.strong_induction_on with
  | _ n ih =>
    intro i
    rcases Nat.eq_zero_or_pos n with hn | hn
    · subst hn
      simp [setBits_zero]
    · have hhalf : n / 2 < n := Nat.div_lt_self hn (by omega)
      by_cases hpar : n % 2 = 1
      · rw [setBits_odd hpar]
        cases i with
        | zero => simp [Nat.testBit_zero, hpar]
        | succ j =>
          rw [Nat.testBit_add_one]
          simp only [List.mem_cons, List.mem_map]
          constructor
          · rintro (h0 | ⟨a, ha, hae⟩)
            · exact absurd h0 (by omega)
            · have haj : a = j := by omega
              subst haj
              exact (ih (n / 2) hhalf a).mp ha
          · intro hbit
            exact Or.inr ⟨j, (ih (n / 2) hhalf j).mpr hbit, rfl⟩
      · have hpar0 : n % 2 = 0 := by omega
        rw [setBits_even hpar0]
        cases i with
        | zero => simp [Nat.testBit_zero, List.mem_map, hpar0]
        | succ j =>
          rw [Nat.testBit_add_one]
          simp only [List.mem_map]
          constructor
          · rintro ⟨a, ha, hae⟩
            have haj : a = j := by omega
            subst haj
            exact (ih (n / 2) hhalf a).mp ha
          · intro hbit
            exact ⟨j, (ih (n / 2) hhalf j).mpr hbit, rfl⟩

theorem pairwise_setBits (n : Nat) : List.Pairwise (· < ·) (setBits n) := by
  induction n using Nat.strong_induction_on with
  | _ n ih =>
    rcases Nat.eq_zero_or_pos n with hn | hn
    · subst hn
      rw [setBits_zero]
      exact List.Pairwise.nil
    · have hhalf : n / 2 < n := Nat.div_lt_self hn (by omega)
      by_cases hpar : n % 2 = 1
      · rw [setBits_odd hpar]
        refine List.Pairwise.cons ?_ ?_
        · intro a ha
          simp only [List.mem_map] at ha
          obtain ⟨c, _, rfl⟩ := ha
          omega
        · exact List.Pairwise.map _ (fun a c hac => by omega) (ih (n / 2) hhalf)
      · have hpar0 : n % 2 = 0 := by omega
        rw [setBits_even hpar0]
        exact List.Pairwise.map _ (fun a c hac => by omega) (ih (n / 2) hhalf)

theorem setBits_lt_of_lt {n i : Nat} (hn : n < 2 ^ 64) (hi : i ∈ setBits n) :
    i < 64 := by
  have hbit := (mem_setBits n i).mp hi
  by_contra hge
  push_neg at hge
  have hlt : n < 2 ^ i := lt_of_lt_of_le hn (Nat.pow_le_pow_right (by omega) hge)
  rw [Nat.testBit_lt_two_pow hlt] at hbit
  exact Bool.noConfusion hbit

theorem and_two_pow_eq_zero_iff (x k : Nat) :
    x &&& 2 ^ k = 0 ↔ x.testBit k = false := by
  constructor
  · intro h0
    have h1 := congrArg (fun n => n.testBit k) h0
    simpa [Nat.testBit_and, Nat.testBit_two_pow_self] using h1
  · intro h0
    apply Nat.eq_of_testBit_eq
    intro i
    rw [Nat.testBit_and, Nat.zero_testBit]
    by_cases hik : k = i
    · subst hik
      simp [h0]
    · simp [Nat.testBit_two_pow_of_ne hik]

theorem or_two_pow_of_testBit {x k : Nat} (h : x.testBit k = true) :
    x ||| 2 ^ k = x := by
  apply Nat.eq_of_testBit_eq
  intro i
  rw [Nat.testBit_or]
  by_cases hik : k = i
  · subst hik
    simp [h]
  · simp [Nat.testBit_two_pow_of_ne hik]

/-- A notify whose bit was already set leaves the whole bus unchanged:
the fetch_or is a no-op on the word and no semaphore post happens. -/
theorem notify_of_testBit_true {b : Bus} {t : Nat}
    (h : (b.journal.pending_bits (t / 64)).testBit (t % 64) = true) :
    b.notify t = b := by
  have hne : ¬ (b.journal.pending_bits (t / 64) &&& 2 ^ (t % 64) = 0) := by
    intro h0
    rw [and_two_pow_eq_zero_iff] at h0
    rw [h] at h0
    exact Bool.noConfusion h0
  have hf : (fun w => if w = t / 64
        then b.journal.pending_bits (t / 64) ||| 2 ^ (t % 64)
        else b.journal.pending_bits w) = b.journal.pending_bits := by
    funext w
    by_cases hw : w = t / 64
    · subst hw
      rw [if_pos rfl, or_two_pow_of_testBit h]
    · rw [if_neg hw]
  simp only [Bus.notify, Nat.one_shiftLeft]
  rw [if_neg hne, hf]

/-- A notify whose bit was clear sets exactly that bit in the topic's
word and posts the semaphore exactly once; slots are untouched. -/
theorem notify_of_testBit_false {b : Bus} {t : Nat}
    (h : (b.journal.pending_bits (t / 64)).testBit (t % 64) = false) :
    (b.notify t).journal.pending_bits =
      (fun w => if w = t / 64
        then b.journal.pending_bits (t / 64) ||| 2 ^ (t % 64)
        else b.journal.pending_bits w) ∧
    (b.notify t).sem = b.sem + 1 ∧
    (b.notify t).journal.slots = b.journal.slots := by
  have hz : b.journal.pending_bits (t / 64) &&& 2 ^ (t % 64) = 0 :=
    (and_two_pow_eq_zero_iff _ _).mpr h
  simp only [Bus.notify, Nat.one_shiftLeft]
  rw [if_pos hz]
  exact ⟨rfl, rfl, rfl⟩

/-- Iterated notify is the identity once the topic's bit is set. -/
theorem notifyN_of_testBit_true {b : Bus} {t : Nat} (n : Nat)
    (h : (b.journal.pending_bits (t / 64)).testBit (t % 64) = true) :
    b.notifyN t n = b := by
  induction n with
  | zero => rfl
  | succ n ih =>
    show (b.notify t).notifyN t n = b
    rw [notify_of_testBit_true h]
    exact ih

/-- C2: N consecutive notifies of topic t starting with its bit clear set
the bit (it ends set) and post the semaphore exactly once; moreover any
notify whose bit was already set changes nothing. -/
theorem notify_coalescing (b : Bus) (t N : Nat) (ht : t < NUM_TOPICS) (hN : 1 ≤ N)
    (hclear : (b.journal.pending_bits (t / 64)).testBit (t % 64) = false) :
    ((b.notifyN t N).journal.pending_bits (t / 64)).testBit (t % 64) = true ∧
    (b.notifyN t N).sem = b.sem + 1 ∧
    ∀ c : Bus, (c.journal.pending_bits (t / 64)).testBit (t % 64) = true →
      c.notify t = c := by
  obtain ⟨n, rfl⟩ : ∃ n, N = n + 1 := ⟨N - 1, by omega⟩
  obtain ⟨hp, hs, _⟩ := notify_of_testBit_false hclear
  have hset : ((b.notify t).journal.pending_bits (t / 64)).testBit (t % 64) = true := by
    rw [hp]
    simp [Nat.testBit_or, Nat.testBit_two_pow_self]
  have hfix := notifyN_of_testBit_true n hset
  have hstep : b.notifyN t (n + 1) = (b.notify t).notifyN t n := rfl
  refine ⟨?_, ?_, fun c hc => notify_of_testBit_true hc⟩
  · rw [hstep, hfix]
    exact hset
  · rw [hstep, hfix, hs]

/-- C2 witness: three notifies of topic 5 on the fresh bus. -/
theorem notify_coalescing_witness :
    (5 < NUM_TOPICS ∧ 1 ≤ 3 ∧
      (open_or_create_fresh.journal.pending_bits (5 / 64)).testBit (5 % 64) = false) ∧
    (((open_or_create_fresh.notifyN 5 3).journal.pending_bits (5 / 64)).testBit (5 % 64) = true ∧
     (open_or_create_fresh.notifyN 5 3).sem = open_or_create_fresh.sem + 1 ∧
     ∀ c : Bus, (c.journal.pending_bits (5 / 64)).testBit (5 % 64) = true →
       c.notify 5 = c) :=
  ⟨⟨by decide, by decide, by decide⟩,
   notify_coalescing open_or_create_fresh 5 3 (by decide) (by decide) (by decide)⟩

/-- C9: write modifies only the slot it addresses: every other slot, the
whole pending bitmap and the semaphore are unchanged, so a write alone
never makes a topic pending. -/
theorem write_frame (b : Bus) (t seq : Nat) (p : List Nat) (ht : t < NUM_TOPICS) :
    (∀ j, j ≠ t * SLOTS_PER_TOPIC + seq % SLOTS_PER_TOPIC →
       (b.write t seq p).journal.slots j = b.journal.slots j) ∧
    (b.write t seq p).journal.pending_bits = b.journal.pending_bits ∧
    (b.write t seq p).sem = b.sem := by
  refine ⟨fun j hj => ?_, rfl, rfl⟩
  simp [Bus.write, hj]

/-- C9 witness: a write to topic 2 at seq 7 on the fresh bus. -/
theorem write_frame_witness :
    2 < NUM_TOPICS ∧
    ((∀ j, j ≠ 2 * SLOTS_PER_TOPIC + 7 % SLOTS_PER_TOPIC →
       (open_or_create_fresh.write 2 7 [1]).journal.slots j =
         open_or_create_fresh.journal.slots j) ∧
     (open_or_create_fresh.write 2 7 [1]).journal.pending_bits =
       open_or_create_fresh.journal.pending_bits ∧
     (open_or_create_fresh.write 2 7 [1]).sem = open_or_create_fresh.sem) :=
  ⟨by decide, write_frame open_or_create_fresh 2 7 [1] (by decide)⟩

/-- C1: for t < NUM_TOPICS, after write(t, seq, payload), read(t, seq)
returns some message whose data_len is min(payload length, DATA_SIZE) and
whose first data_len bytes are the (possibly truncated) payload. -/
theorem write_read_roundtrip (b : Bus) (t seq : Nat) (payload : List Nat)
    (ht : t < NUM_TOPICS) :
    ∃ m : Message, (b.write t seq payload).read t seq = some m ∧
      m.data_len = min payload.length DATA_SIZE ∧
      ∀ i, i < m.data_len → m.data i = payload.getD i 0 := by
  refine ⟨{ seq := seq
            data := fun i => if i < min payload.length DATA_SIZE then payload.getD i 0 else 0
            data_len := min payload.length DATA_SIZE }, ?_, rfl, ?_⟩
  · simp [Bus.write, Bus.read]
  · intro i hi
    exact if_pos hi

/-- C1 witness: topic 3, seq 5, a 3-byte payload on the fresh bus. -/
theorem write_read_roundtrip_witness :
    3 < NUM_TOPICS ∧
    (∃ m : Message, (open_or_create_fresh.write 3 5 [97, 98, 99]).read 3 5 = some m ∧
      m.data_len = min ([97, 98, 99] : List Nat).length DATA_SIZE ∧
      ∀ i, i < m.data_len → m.data i = ([97, 98, 99] : List Nat).getD i 0) :=
  ⟨by decide, write_read_roundtrip open_or_create_fresh 3 5 [97, 98, 99] (by decide)⟩

/-- C4: a later write with a different seq mapping to the same ring slot
makes read of the earlier seq return none; in general read returns some m
iff the stored seq at the addressed slot equals the requested seq and m is
that stored slot. -/
theorem read_stale_mismatch (b : Bus) (t seq1 seq2 : Nat) (p1 p2 : List Nat)
    (ht : t < NUM_TOPICS) (hne : seq1 ≠ seq2)
    (hmod : seq1 % SLOTS_PER_TOPIC = seq2 % SLOTS_PER_TOPIC) :
    ((b.write t seq1 p1).write t seq2 p2).read t seq1 = none ∧
    ∀ (c : Bus) (tid s : Nat) (m : Message),
      (c.read tid s = some m ↔
        (c.journal.slots (tid * SLOTS_PER_TOPIC + s % SLOTS_PER_TOPIC)).seq = s ∧
        m = c.journal.slots (tid * SLOTS_PER_TOPIC + s % SLOTS_PER_TOPIC)) := by
  constructor
  · simp [Bus.write, Bus.read, hmod, Ne.symm hne]
  · intro c tid s m
    simp only [Bus.read]
    split
    · next h => simp [h, eq_comm]
    · next h => simp [h]

/-- C4 witness: seqs 5 and 15 on topic 0 share slot 5; reading seq 5 after
both writes yields none. -/
theorem read_stale_mismatch_witness :
    (0 < NUM_TOPICS ∧ (5 : Nat) ≠ 15 ∧ 5 % SLOTS_PER_TOPIC = 15 % SLOTS_PER_TOPIC) ∧
    (((open_or_create_fresh.write 0 5 []).write 0 15 []).read 0 5 = none ∧
     ∀ (c : Bus) (tid s : Nat) (m : Message),
      (c.read tid s = some m ↔
        (c.journal.slots (tid * SLOTS_PER_TOPIC + s % SLOTS_PER_TOPIC)).seq = s ∧
        m = c.journal.slots (tid * SLOTS_PER_TOPIC + s % SLOTS_PER_TOPIC))) :=
  ⟨⟨by decide, by decide, by decide⟩,
   read_stale_mismatch open_or_create_fresh 0 5 15 [] [] (by decide) (by decide) (by decide)⟩

/-- C6: a freshly created bus has latest seq 0 for every topic, all
pending words zero, and read of any nonzero seq returns none. -/
theorem fresh_zero_state (t seq : Nat) (ht : t < NUM_TOPICS) (hseq : seq ≠ 0) :
    open_or_create_fresh.get_latest_seq t = 0 ∧
    (∀ w, open_or_create_fresh.journal.pending_bits w = 0) ∧
    open_or_create_fresh.read t seq = none := by
  refine ⟨rfl, fun w => rfl, ?_⟩
  simp [Bus.read, open_or_create_fresh, freshJournal, Message.default, Ne.symm hseq]

/-- C6 witness: topic 0, seq 1 on the fresh bus. -/
theorem fresh_zero_state_witness :
    (0 < NUM_TOPICS ∧ (1 : Nat) ≠ 0) ∧
    (open_or_create_fresh.get_latest_seq 0 = 0 ∧
     (∀ w, open_or_create_fresh.journal.pending_bits w = 0) ∧
     open_or_create_fresh.read 0 1 = none) :=
  ⟨⟨by decide, by decide⟩, fresh_zero_state 0 1 (by decide) (by decide)⟩

/-- State effect of the drain word loop: the processed words are zeroed,
every other pending word, every slot and the semaphore are untouched. -/
theorem drainWords_state (mask : Nat → Nat) :
    ∀ (count : Nat) (b : Bus) (w : Nat),
      ((b.drainWords mask w count).1.journal.pending_bits =
        fun w' => if w ≤ w' ∧ w' < w + count then 0 else b.journal.pending_bits w') ∧
      (b.drainWords mask w count).1.journal.slots = b.journal.slots ∧
      (b.drainWords mask w count).1.sem = b.sem := by
  intro count
  induction count with
  | zero =>
    intro b w
    refine ⟨?_, rfl, rfl⟩
    funext w'
    rw [if_neg (by omega)]
    rfl
  | succ count ih =>
    intro b w
    obtain ⟨hp, hs, hm⟩ := ih (Bus.mk (Journal.mk b.journal.slots
        (fun w' => if w' = w then 0 else b.journal.pending_bits w')) b.sem) (w + 1)
    have hstep : (b.drainWords mask w (count + 1)).1 =
        ((Bus.mk (Journal.mk b.journal.slots
          (fun w' => if w' = w then 0 else b.journal.pending_bits w')) b.sem).drainWords
            mask (w + 1) count).1 := rfl
    refine ⟨?_, ?_, ?_⟩
    · rw [hstep, hp]
      funext w'
      by_cases h1 : w + 1 ≤ w' ∧ w' < w + 1 + count
      · rw [if_pos h1, if_pos (show w ≤ w' ∧ w' < w + (count + 1) by omega)]
      · rw [if_neg h1]
        show (if w' = w then 0 else b.journal.pending_bits w') = _
        by_cases h2 : w' = w
        · rw [if_pos h2, if_pos (show w ≤ w' ∧ w' < w + (count + 1) by omega)]
        · rw [if_neg h2, if_neg (show ¬ (w ≤ w' ∧ w' < w + (count + 1)) by omega)]
    · rw [hstep]
      exact hs
    · rw [hstep]
      exact hm

/-- Which topics the drain word loop hands to the callback: exactly those
whose word lies in the processed range and whose masked captured bit is
set (under the u64 bound on the pending words). -/
theorem mem_drainWords (mask : Nat → Nat) :
    ∀ (count : Nat) (b : Bus) (w t : Nat),
      (∀ w', b.journal.pending_bits w' < 2 ^ 64) →
      (t ∈ (b.drainWords mask w count).2 ↔
        (w ≤ t / 64 ∧ t / 64 < w + count ∧
         ((b.journal.pending_bits (t / 64)) &&& mask (t / 64)).testBit (t % 64) = true)) := by
  intro count
  induction count with
  | zero =>
    intro b w t hw
    constructor
    · intro h
      simp [Bus.drainWords] at h
    · rintro ⟨h1, h2, _⟩
      omega
  | succ count ih =>
    intro b w t hw
    have hstep : (b.drainWords mask w (count + 1)).2 =
        ((setBits ((b.journal.pending_bits w) &&& mask w)).map (fun tz => w * 64 + tz)) ++
          ((Bus.mk (Journal.mk b.journal.slots
             (fun w' => if w' = w then 0 else b.journal.pending_bits w')) b.sem).drainWords
               mask (w + 1) count).2 := rfl
    have hw' : ∀ w', (Bus.mk (Journal.mk b.journal.slots
        (fun w' => if w' = w then 0 else b.journal.pending_bits w')) b.sem).journal.pending_bits
          w' < 2 ^ 64 := by
      intro w'
      dsimp only
      by_cases hc : w' = w
      · rw [if_pos hc]
        exact Nat.two_pow_pos 64
      · rw [if_neg hc]
        exact hw w'
    rw [hstep, List.mem_append, ih _ (w + 1) t hw']
    dsimp only
    constructor
    · rintro (hmem | ⟨h1, h2, h3⟩)
      · simp only [List.mem_map] at hmem
        obtain ⟨tz, htz, rfl⟩ := hmem
        have htz64 : tz < 64 :=
          setBits_lt_of_lt (Nat.lt_of_le_of_lt Nat.and_le_left (hw w)) htz
        have hdiv : (w * 64 + tz) / 64 = w := by omega
        have hmod : (w * 64 + tz) % 64 = tz := by omega
        rw [hdiv, hmod]
        exact ⟨Nat.le_refl w, by omega, (mem_setBits _ tz).mp htz⟩
      · have hne : ¬ (t / 64 = w) := by omega
        rw [if_neg hne] at h3
        exact ⟨by omega, by omega, h3⟩
    · rintro ⟨h1, h2, h3⟩
      by_cases hcase : t / 64 = w
      · refine Or.inl (List.mem_map.mpr ⟨t % 64, (mem_setBits _ _).mpr ?_, ?_⟩)
        · rw [← hcase]
          exact h3
        · omega
      · refine Or.inr ⟨by omega, by omega, ?_⟩
        rw [if_neg hcase]
        exact h3

/-- Callback order of the drain word loop: strictly increasing topic ids,
and every emitted id is at least the first processed word's base. -/
theorem drainWords_pairwise (mask : Nat → Nat) :
    ∀ (count : Nat) (b : Bus) (w : Nat),
      (∀ w', b.journal.pending_bits w' < 2 ^ 64) →
      List.Pairwise (· < ·) (b.drainWords mask w count).2 ∧
      ∀ x ∈ (b.drainWords mask w count).2, w * 64 ≤ x := by
  intro count
  induction count with
  | zero =>
    intro b w hw
    exact ⟨List.Pairwise.nil, fun x hx => absurd hx (List.not_mem_nil x)⟩
  | succ count ih =>
    intro b w hw
    have hstep : (b.drainWords mask w (count + 1)).2 =
        ((setBits ((b.journal.pending_bits w) &&& mask w)).map (fun tz => w * 64 + tz)) ++
          ((Bus.mk (Journal.mk b.journal.slots
             (fun w' => if w' = w then 0 else b.journal.pending_bits w')) b.sem).drainWords
               mask (w + 1) count).2 := rfl
    have hw' : ∀ w', (Bus.mk (Journal.mk b.journal.slots
        (fun w' => if w' = w then 0 else b.journal.pending_bits w')) b.sem).journal.pending_bits
          w' < 2 ^ 64 := by
      intro w'
      dsimp only
      by_cases hc : w' = w
      · rw [if_pos hc]
        exact Nat.two_pow_pos 64
      · rw [if_neg hc]
        exact hw w'
    obtain ⟨hrpw, hrlb⟩ := ih (Bus.mk (Journal.mk b.journal.slots
        (fun w' => if w' = w then 0 else b.journal.pending_bits w')) b.sem) (w + 1) hw'
    rw [hstep]
    constructor
    · rw [List.pairwise_append]
      refine ⟨List.Pairwise.map _ (fun a c hac => by omega) (pairwise_setBits _), hrpw, ?_⟩
      intro x hx y hy
      simp only [List.mem_map] at hx
      obtain ⟨tz, htz, rfl⟩ := hx
      have htz64 : tz < 64 :=
        setBits_lt_of_lt (Nat.lt_of_le_of_lt Nat.and_le_left (hw w)) htz
      have hyb := hrlb y hy
      omega
    · intro x hx
      rw [List.mem_append] at hx
      rcases hx with hx | hx
      · simp only [List.mem_map] at hx
        obtain ⟨tz, _, rfl⟩ := hx
        omega
      · have := hrlb x hx
        omega

/-- A concrete bus used to instantiate the drain theorems: bits 0, 1 and 3
of pending word 0 set (topics 0, 1, 3) and bit 6 of word 1 (topic 70). -/
def sampleBus : Bus :=
  { journal :=
      { slots := fun _ => Message.default
        pending_bits := fun w => if w = 0 then 11 else if w = 1 then 64 else 0 }
    sem := 0 }

theorem sampleBus_words_lt : ∀ w, sampleBus.journal.pending_bits w < 2 ^ 64 := by
  intro w
  dsimp only [sampleBus]
  by_cases h0 : w = 0
  · rw [if_pos h0]
    norm_num
  · rw [if_neg h0]
    by_cases h1 : w = 1
    · rw [if_pos h1]
      norm_num
    · rw [if_neg h1]
      norm_num

/-- C10: a single drain, with any mask (including an all-zero one),
swaps every one of the BITWORDS pending words to zero, and modifies no
message slot and not the semaphore. -/
theorem drain_clears_all (b : Bus) (mask : Nat → Nat) :
    (∀ w, w < BITWORDS → (b.drain_pending_mask mask).1.journal.pending_bits w = 0) ∧
    (b.drain_pending_mask mask).1.journal.slots = b.journal.slots ∧
    (b.drain_pending_mask mask).1.sem = b.sem := by
  obtain ⟨hp, hs, hm⟩ := drainWords_state mask BITWORDS b 0
  refine ⟨fun w hw => ?_, hs, hm⟩
  show (b.drainWords mask 0 BITWORDS).1.journal.pending_bits w = 0
  rw [hp]
  exact if_pos ⟨Nat.zero_le w, by omega⟩

/-- C10 witness: draining the sample bus with the all-zero mask zeroes
pending word 0 and leaves the slots alone. -/
theorem drain_clears_all_witness :
    (sampleBus.drain_pending_mask (fun _ => 0)).1.journal.pending_bits 0 = 0 ∧
    (sampleBus.drain_pending_mask (fun _ => 0)).1.journal.slots = sampleBus.journal.slots :=
  ⟨(drain_clears_all sampleBus (fun _ => 0)).1 0 (by decide),
   (drain_clears_all sampleBus (fun _ => 0)).2.1⟩

/-- C3: when topic t is pending but its bit is absent from the mask, the
drain never hands t to the callback, yet t's pending bit is cleared by
the drain. -/
theorem drain_mask_filtering (b : Bus) (mask : Nat → Nat) (t : Nat)
    (ht : t < NUM_TOPICS)
    (hword : ∀ w, b.journal.pending_bits w < 2 ^ 64)
    (hpend : (b.journal.pending_bits (t / 64)).testBit (t % 64) = true)
    (hmask : (mask (t / 64)).testBit (t % 64) = false) :
    t ∉ (b.drain_pending_mask mask).2 ∧
    ((b.drain_pending_mask mask).1.journal.pending_bits (t / 64)).testBit (t % 64) = false := by
  have hNT : NUM_TOPICS = 600 := rfl
  have hBW : BITWORDS = 10 := rfl
  constructor
  · intro hmem
    have hmem' : t ∈ (b.drainWords mask 0 BITWORDS).2 := hmem
    rw [mem_drainWords mask BITWORDS b 0 t hword] at hmem'
    obtain ⟨_, _, h3⟩ := hmem'
    rw [Nat.testBit_and, hmask, Bool.and_false] at h3
    exact Bool.noConfusion h3
  · obtain ⟨hp, _, _⟩ := drainWords_state mask BITWORDS b 0
    show ((b.drainWords mask 0 BITWORDS).1.journal.pending_bits (t / 64)).testBit (t % 64) = false
    rw [hp]
    rw [hNT] at ht
    have hc : 0 ≤ t / 64 ∧ t / 64 < 0 + BITWORDS := ⟨Nat.zero_le _, by rw [hBW]; omega⟩
    show (if 0 ≤ t / 64 ∧ t / 64 < 0 + BITWORDS then (0 : Nat)
        else b.journal.pending_bits (t / 64)).testBit (t % 64) = false
    rw [if_pos hc]
    exact Nat.zero_testBit _

/-- C3 witness: topic 1 is pending in the sample bus; a mask holding only
bit 0 filters it out while its bit is still cleared. -/
theorem drain_mask_filtering_witness :
    (1 < NUM_TOPICS ∧
     (sampleBus.journal.pending_bits (1 / 64)).testBit (1 % 64) = true ∧
     ((fun _ : Nat => (1 : Nat)) (1 / 64)).testBit (1 % 64) = false) ∧
    (1 ∉ (sampleBus.drain_pending_mask (fun _ => 1)).2 ∧
     ((sampleBus.drain_pending_mask (fun _ => 1)).1.journal.pending_bits
        (1 / 64)).testBit (1 % 64) = false) :=
  ⟨⟨by decide, by decide, by decide⟩,
   drain_mask_filtering sampleBus (fun _ => 1) 1 (by decide) sampleBus_words_lt
     (by decide) (by decide)⟩

/-- C7: draining invokes the callback exactly once per topic whose bit
survives masking (the emitted list has no duplicates and contains exactly
the surviving topics), and the callback arguments are strictly increasing
(ascending word order, ascending bit position within a word). -/
theorem drain_order_and_once (b : Bus) (mask : Nat → Nat)
    (hword : ∀ w, b.journal.pending_bits w < 2 ^ 64) :
    List.Pairwise (· < ·) (b.drain_pending_mask mask).2 ∧
    (b.drain_pending_mask mask).2.Nodup ∧
    ∀ t, t ∈ (b.drain_pending_mask mask).2 ↔
      (t / 64 < BITWORDS ∧
       ((b.journal.pending_bits (t / 64)) &&& mask (t / 64)).testBit (t % 64) = true) := by
  obtain ⟨hpw, _⟩ := drainWords_pairwise mask BITWORDS b 0 hword
  refine ⟨hpw, List.Pairwise.imp (fun hac => Nat.ne_of_lt hac) hpw, fun t => ?_⟩
  have hmem := mem_drainWords mask BITWORDS b 0 t hword
  constructor
  · intro h
    obtain ⟨_, h2, h3⟩ := hmem.mp h
    exact ⟨by omega, h3⟩
  · rintro ⟨h1, h3⟩
    exact hmem.mpr ⟨Nat.zero_le _, by omega, h3⟩

/-- C7 witness: the sample bus drained with an all-ones mask over its two
populated words. -/
theorem drain_order_and_once_witness :
    List.Pairwise (· < ·) (sampleBus.drain_pending_mask (fun _ => 2 ^ 64 - 1)).2 ∧
    (sampleBus.drain_pending_mask (fun _ => 2 ^ 64 - 1)).2.Nodup ∧
    ∀ t, t ∈ (sampleBus.drain_pending_mask (fun _ => 2 ^ 64 - 1)).2 ↔
      (t / 64 < BITWORDS ∧
       ((sampleBus.journal.pending_bits (t / 64)) &&&
         (fun _ : Nat => 2 ^ 64 - 1) (t / 64)).testBit (t % 64) = true) :=
  drain_order_and_once sampleBus (fun _ => 2 ^ 64 - 1) sampleBus_words_lt

/-- A write leaves every slot other than its addressed one unchanged. -/
theorem write_slot_other {b : Bus} {tid seq : Nat} {p : List Nat} {j : Nat}
    (hj : j ≠ tid * SLOTS_PER_TOPIC + seq % SLOTS_PER_TOPIC) :
    (b.write tid seq p).journal.slots j = b.journal.slots j := by
  simp [Bus.write, hj]

/-- A write stores its seq in the addressed slot. -/
theorem write_slot_self (b : Bus) (tid seq : Nat) (p : List Nat) :
    ((b.write tid seq p).journal.slots
      (tid * SLOTS_PER_TOPIC + seq % SLOTS_PER_TOPIC)).seq = seq := by
  simp [Bus.write]

/-- The scan loop of get_latest_seq: its result dominates the scanned
values, and is either the start value or one of them. -/
theorem foldl_latest_spec (f : Nat → Nat) (l : List Nat) :
    ∀ a : Nat,
      a ≤ l.foldl (fun latest i => if f i > latest then f i else latest) a ∧
      (∀ i ∈ l, f i ≤ l.foldl (fun latest i => if f i > latest then f i else latest) a) ∧
      (l.foldl (fun latest i => if f i > latest then f i else latest) a = a ∨
       ∃ i ∈ l, l.foldl (fun latest i => if f i > latest then f i else latest) a = f i) := by
  induction l with
  | nil =>
    intro a
    exact ⟨Nat.le_refl a, by intro i hi; exact absurd hi (List.not_mem_nil i), Or.inl rfl⟩
  | cons x xs ih =>
    intro a
    have hstep : (x :: xs).foldl (fun latest i => if f i > latest then f i else latest) a =
        xs.foldl (fun latest i => if f i > latest then f i else latest)
          (if f x > a then f x else a) := rfl
    obtain ⟨h1, h2, h3⟩ := ih (if f x > a then f x else a)
    refine ⟨?_, ?_, ?_⟩
    · rw [hstep]
      exact Nat.le_trans (by split <;> omega) h1
    · intro i hi
      rw [hstep]
      rcases List.mem_cons.mp hi with rfl | hi'
      · exact Nat.le_trans (by split <;> omega) h1
      · exact h2 i hi'
    · rw [hstep]
      rcases h3 with h | ⟨i, hi, he⟩
      · by_cases hx : f x > a
        · exact Or.inr ⟨x, List.mem_cons_self x xs, by rw [h, if_pos hx]⟩
        · exact Or.inl (by rw [h, if_neg hx])
      · exact Or.inr ⟨i, List.mem_cons_of_mem x hi, he⟩

/-- get_latest_seq dominates every slot's seq of the topic, and is 0 or
one of those seqs. -/
theorem get_latest_seq_spec (b : Bus) (t : Nat) :
    (∀ i, i < SLOTS_PER_TOPIC →
      (b.journal.slots (t * SLOTS_PER_TOPIC + i)).seq ≤ b.get_latest_seq t) ∧
    (b.get_latest_seq t = 0 ∨
     ∃ i, i < SLOTS_PER_TOPIC ∧
       b.get_latest_seq t = (b.journal.slots (t * SLOTS_PER_TOPIC + i)).seq) := by
  obtain ⟨_, h2, h3⟩ := foldl_latest_spec
      (fun i => (b.journal.slots (t * SLOTS_PER_TOPIC + i)).seq)
      (List.range SLOTS_PER_TOPIC) 0
  constructor
  · intro i hi
    exact h2 i (List.mem_range.mpr hi)
  · rcases h3 with h | ⟨i, hi, he⟩
    · exact Or.inl h
    · exact Or.inr ⟨i, List.mem_range.mp hi, he⟩

/-- Every seq stored in a slot of topic t after a write sequence from the
fresh journal is 0 or one of the seqs written to t. -/
theorem writeList_slot_seq (t : Nat) (ws : List (Nat × Nat × List Nat)) :
    ∀ i, i < SLOTS_PER_TOPIC →
      ((open_or_create_fresh.writeList ws).journal.slots (t * SLOTS_PER_TOPIC + i)).seq = 0 ∨
      ((open_or_create_fresh.writeList ws).journal.slots (t * SLOTS_PER_TOPIC + i)).seq ∈
        (ws.filter (fun e => e.1 == t)).map (fun e => e.2.1) := by
  induction ws using List.reverseRecOn with
  | nil =>
    intro i hi
    exact Or.inl rfl
  | append_singleton ws e ih =>
    intro i hi
    have hw : open_or_create_fresh.writeList (ws ++ [e]) =
        (open_or_create_fresh.writeList ws).write e.1 e.2.1 e.2.2 := by
      rw [Bus.writeList, List.foldl_append]
      rfl
    rw [hw]
    by_cases hie : t * SLOTS_PER_TOPIC + i = e.1 * SLOTS_PER_TOPIC + e.2.1 % SLOTS_PER_TOPIC
    · have hmod : e.2.1 % SLOTS_PER_TOPIC < SLOTS_PER_TOPIC := Nat.mod_lt _ (by decide)
      have het : e.1 = t := by
        have hS : SLOTS_PER_TOPIC = 10 := rfl
        rw [hS] at hie hi hmod
        omega
      have hseq : (((open_or_create_fresh.writeList ws).write e.1 e.2.1 e.2.2).journal.slots
          (t * SLOTS_PER_TOPIC + i)).seq = e.2.1 := by
        rw [hie]
        exact write_slot_self _ _ _ _
      rw [hseq]
      refine Or.inr ?_
      rw [List.filter_append, List.map_append, List.mem_append]
      refine Or.inr ?_
      simp [het]
    · rw [write_slot_other hie]
      rcases ih i hi with h0 | hmem
      · exact Or.inl h0
      · refine Or.inr ?_
        rw [List.filter_append, List.map_append, List.mem_append]
        exact Or.inl hmem

/-- After a write sequence from the fresh journal, some slot of topic t
stores the last seq written to t (0 when t was never written). -/
theorem writeList_last_slot (t : Nat) (ws : List (Nat × Nat × List Nat)) :
    ∃ i, i < SLOTS_PER_TOPIC ∧
      ((open_or_create_fresh.writeList ws).journal.slots (t * SLOTS_PER_TOPIC + i)).seq =
        ((ws.filter (fun e => e.1 == t)).map (fun e => e.2.1)).getLastD 0 := by
  induction ws using List.reverseRecOn with
  | nil => exact ⟨0, by decide, rfl⟩
  | append_singleton ws e ih =>
    have hw : open_or_create_fresh.writeList (ws ++ [e]) =
        (open_or_create_fresh.writeList ws).write e.1 e.2.1 e.2.2 := by
      rw [Bus.writeList, List.foldl_append]
      rfl
    by_cases het : e.1 = t
    · refine ⟨e.2.1 % SLOTS_PER_TOPIC, Nat.mod_lt _ (by decide), ?_⟩
      have hgl : (((ws ++ [e]).filter (fun x => x.1 == t)).map (fun x => x.2.1)).getLastD 0
          = e.2.1 := by
        rw [List.filter_append, List.map_append]
        simp [het, List.getLastD_concat]
      rw [hw, hgl,
          show t * SLOTS_PER_TOPIC + e.2.1 % SLOTS_PER_TOPIC
            = e.1 * SLOTS_PER_TOPIC + e.2.1 % SLOTS_PER_TOPIC by rw [het]]
      exact write_slot_self _ _ _ _
    · obtain ⟨i, hi, hs⟩ := ih
      refine ⟨i, hi, ?_⟩
      have hfl : ((ws ++ [e]).filter (fun x => x.1 == t)) = ws.filter (fun x => x.1 == t) := by
        rw [List.filter_append]
        have hb : (e.1 == t) = false := beq_eq_false_iff_ne.mpr het
        have : (List.filter (fun x => x.1 == t) [e]) = [] := by
          simp [List.filter, hb]
        rw [this, List.append_nil]
      rw [hw, hfl]
      have hmod : e.2.1 % SLOTS_PER_TOPIC < SLOTS_PER_TOPIC := Nat.mod_lt _ (by decide)
      have hne : t * SLOTS_PER_TOPIC + i ≠ e.1 * SLOTS_PER_TOPIC + e.2.1 % SLOTS_PER_TOPIC := by
        have hS : SLOTS_PER_TOPIC = 10 := rfl
        rw [hS] at hi hmod ⊢
        intro hco
        exact het (by omega)
      rw [write_slot_other hne]
      exact hs

/-- With strictly increasing values, each element is at most the last. -/
theorem le_getLastD_of_pairwise {l : List Nat} (hp : List.Pairwise (· < ·) l) :
    ∀ x ∈ l, x ≤ l.getLastD 0 := by
  induction l using List.reverseRecOn with
  | nil =>
    intro x hx
    exact absurd hx (List.not_mem_nil x)
  | append_singleton l a ihl =>
    intro x hx
    rw [List.getLastD_concat]
    rcases List.mem_append.mp hx with hx | hx
    · have hlt := (List.pairwise_append.mp hp).2.2 x hx a (List.mem_singleton.mpr rfl)
      omega
    · rw [List.mem_singleton] at hx
      omega

/-- C5: get_latest_seq t is the maximum stored seq over t's slots (with
floor 0), and after any write sequence from a fresh journal whose writes
to t carry strictly increasing seqs (interleaved arbitrarily with writes
to other topics), it equals the seq of the last write to t. -/
theorem get_latest_seq_correct (b : Bus) (t : Nat) (ht : t < NUM_TOPICS)
    (ws : List (Nat × Nat × List Nat))
    (hinc : List.Pairwise (· < ·) ((ws.filter (fun e => e.1 == t)).map (fun e => e.2.1)))
    (hne : (ws.filter (fun e => e.1 == t)).map (fun e => e.2.1) ≠ []) :
    (∀ i, i < SLOTS_PER_TOPIC →
       (b.journal.slots (t * SLOTS_PER_TOPIC + i)).seq ≤ b.get_latest_seq t) ∧
    (b.get_latest_seq t = 0 ∨
     ∃ i, i < SLOTS_PER_TOPIC ∧
       b.get_latest_seq t = (b.journal.slots (t * SLOTS_PER_TOPIC + i)).seq) ∧
    (open_or_create_fresh.writeList ws).get_latest_seq t =
      ((ws.filter (fun e => e.1 == t)).map (fun e => e.2.1)).getLastD 0 := by
  obtain ⟨hub, hcases⟩ := get_latest_seq_spec b t
  refine ⟨hub, hcases, Nat.le_antisymm ?_ ?_⟩
  · obtain ⟨hub2, hcases2⟩ := get_latest_seq_spec (open_or_create_fresh.writeList ws) t
    rcases hcases2 with h0 | ⟨i, hi, he⟩
    · rw [h0]
      exact Nat.zero_le _
    · rw [he]
      rcases writeList_slot_seq t ws i hi with h0 | hmem
      · rw [h0]
        exact Nat.zero_le _
      · exact le_getLastD_of_pairwise hinc _ hmem
  · obtain ⟨i, hi, hs⟩ := writeList_last_slot t ws
    have hle := (get_latest_seq_spec (open_or_create_fresh.writeList ws) t).1 i hi
    rw [hs] at hle
    exact hle

/-- C5 witness: writes to topic 3 with seqs 1 then 4, a write to topic 7
interleaved; the latest seq of topic 3 ends at 4. -/
theorem get_latest_seq_correct_witness :
    (3 < NUM_TOPICS ∧
     List.Pairwise (· < ·)
       (([((3 : Nat), (1 : Nat), ([] : List Nat)), (7, 9, []), (3, 4, [])].filter
          (fun e => e.1 == 3)).map (fun e => e.2.1)) ∧
     ([((3 : Nat), (1 : Nat), ([] : List Nat)), (7, 9, []), (3, 4, [])].filter
        (fun e => e.1 == 3)).map (fun e => e.2.1) ≠ []) ∧
    (open_or_create_fresh.writeList
        [((3 : Nat), (1 : Nat), ([] : List Nat)), (7, 9, []), (3, 4, [])]).get_latest_seq 3 =
      (([((3 : Nat), (1 : Nat), ([] : List Nat)), (7, 9, []), (3, 4, [])].filter
         (fun e => e.1 == 3)).map (fun e => e.2.1)).getLastD 0 :=
  ⟨⟨by decide, by decide, by decide⟩,
   (get_latest_seq_correct open_or_create_fresh 3 (by decide)
     [((3 : Nat), (1 : Nat), ([] : List Nat)), (7, 9, []), (3, 4, [])]
     (by decide) (by decide)).2.2⟩

/-- The release-build scan stays none once its accumulator is none. -/
theorem foldl_release_none (b : Bus) (t : Nat) (l : List Nat) :
    l.foldl (fun acc i =>
      acc.bind fun latest =>
        if (t * SLOTS_PER_TOPIC % USIZE + i) % USIZE < JOURNAL_SIZE then
          some (if (b.journal.slots
              ((t * SLOTS_PER_TOPIC % USIZE + i) % USIZE)).seq > latest
            then (b.journal.slots ((t * SLOTS_PER_TOPIC % USIZE + i) % USIZE)).seq
            else latest)
        else none) none = none := by
  induction l with
  | nil => rfl
  | cons x xs ih => exact ih

/-- C8 counterexample: a release-build write at the first out-of-range
topic id (whose index arithmetic does not wrap) hits the mandatory array
bounds check of the slot store and panics, so a check does stop the
out-of-range access. -/
theorem release_write_out_of_range_panics :
    open_or_create_fresh.writeRelease NUM_TOPICS 0 [] = none := rfl

/-- C8 amended: notify performs no bounds validation in an optimized build
(its assertion is debug-only and the pending-word access is unchecked).
write, read and get_latest_seq carry no debug assertion; in a release
build their slot index is wrapping usize arithmetic and the mandatory
bounds check of the slot indexing panics exactly when the wrapped index
leaves the journal: every out-of-range topic id whose index computation
does not wrap is stopped by that panic, while a wrap-band id such as
1844674407370955162 (topic_id * 10 wraps to 4) indexes in bounds and the
release-build access proceeds on the wrong slots with no check at all. -/
theorem out_of_range_topic_behavior (b : Bus) (t seq : Nat) (p : List Nat)
    (ht : NUM_TOPICS ≤ t) (hnw : t * SLOTS_PER_TOPIC + SLOTS_PER_TOPIC ≤ USIZE) :
    b.writeRelease t seq p = none ∧
    b.readRelease t seq = none ∧
    b.get_latest_seqRelease t = none ∧
    b.notifyDbg false t = some (b.notify t) ∧
    b.notifyDbg true t = none ∧
    (∃ c, b.writeRelease 1844674407370955162 seq p = some c) := by
  have ht6 : 600 ≤ t := ht
  have hnw' : t * 10 + 10 ≤ 18446744073709551616 := hnw
  have hidx : ∀ r : Nat, r < SLOTS_PER_TOPIC →
      ¬ ((t * SLOTS_PER_TOPIC % USIZE + r) % USIZE < JOURNAL_SIZE) := by
    intro r hr
    have hr10 : r < 10 := hr
    show ¬ ((t * 10 % 18446744073709551616 + r) % 18446744073709551616 < 6000)
    have h1 : t * 10 % 18446744073709551616 = t * 10 := Nat.mod_eq_of_lt (by omega)
    rw [h1]
    have h2 : (t * 10 + r) % 18446744073709551616 = t * 10 + r :=
      Nat.mod_eq_of_lt (by omega)
    rw [h2]
    omega
  refine ⟨?_, ?_, ?_, ?_, ?_, ?_⟩
  · simp only [Bus.writeRelease]
    rw [if_neg (hidx _ (Nat.mod_lt _ (by decide)))]
  · simp only [Bus.readRelease]
    rw [if_neg (hidx _ (Nat.mod_lt _ (by decide)))]
  · have hnone : (List.range SLOTS_PER_TOPIC).foldl (fun acc i =>
        acc.bind fun latest =>
          if (t * SLOTS_PER_TOPIC % USIZE + i) % USIZE < JOURNAL_SIZE then
            some (if (b.journal.slots
                ((t * SLOTS_PER_TOPIC % USIZE + i) % USIZE)).seq > latest
              then (b.journal.slots ((t * SLOTS_PER_TOPIC % USIZE + i) % USIZE)).seq
              else latest)
          else none) (some 0) = none := by
      rw [show List.range SLOTS_PER_TOPIC = 0 :: [1, 2, 3, 4, 5, 6, 7, 8, 9] from rfl,
          List.foldl_cons]
      have h0 : ((some (0 : Nat)).bind fun latest =>
          if (t * SLOTS_PER_TOPIC % USIZE + 0) % USIZE < JOURNAL_SIZE then
            some (if (b.journal.slots
                ((t * SLOTS_PER_TOPIC % USIZE + 0) % USIZE)).seq > latest
              then (b.journal.slots ((t * SLOTS_PER_TOPIC % USIZE + 0) % USIZE)).seq
              else latest)
          else none) = none := by
        show (if (t * SLOTS_PER_TOPIC % USIZE + 0) % USIZE < JOURNAL_SIZE then
            some (if (b.journal.slots
                ((t * SLOTS_PER_TOPIC % USIZE + 0) % USIZE)).seq > 0
              then (b.journal.slots ((t * SLOTS_PER_TOPIC % USIZE + 0) % USIZE)).seq
              else 0)
          else none) = none
        rw [if_neg (hidx 0 (by decide))]
      rw [h0]
      exact foldl_release_none b t [1, 2, 3, 4, 5, 6, 7, 8, 9]
    exact hnone
  · simp [Bus.notifyDbg]
  · simp only [Bus.notifyDbg]
    rw [if_pos ⟨trivial, ht⟩]
  · have hm : (1844674407370955162 : Nat) * SLOTS_PER_TOPIC % USIZE = 4 := by decide
    have hin : (1844674407370955162 * SLOTS_PER_TOPIC % USIZE + seq % SLOTS_PER_TOPIC)
        % USIZE < JOURNAL_SIZE := by
      rw [hm]
      have hr : seq % SLOTS_PER_TOPIC < 10 := Nat.mod_lt _ (by decide)
      have hs : (4 + seq % SLOTS_PER_TOPIC) % USIZE = 4 + seq % SLOTS_PER_TOPIC :=
        Nat.mod_eq_of_lt (by show _ < 18446744073709551616; omega)
      rw [hs]
      show 4 + seq % SLOTS_PER_TOPIC < 6000
      omega
    simp only [Bus.writeRelease]
    rw [if_pos hin]
    exact ⟨_, rfl⟩

/-- C8 amended witness: the boundary topic id NUM_TOPICS on the fresh bus. -/
theorem out_of_range_topic_behavior_witness :
    (NUM_TOPICS ≤ NUM_TOPICS ∧
     NUM_TOPICS * SLOTS_PER_TOPIC + SLOTS_PER_TOPIC ≤ USIZE) ∧
    (open_or_create_fresh.writeRelease NUM_TOPICS 3 [7] = none ∧
     open_or_create_fresh.readRelease NUM_TOPICS 3 = none ∧
     open_or_create_fresh.get_latest_seqRelease NUM_TOPICS = none ∧
     open_or_create_fresh.notifyDbg false NUM_TOPICS =
       some (open_or_create_fresh.notify NUM_TOPICS) ∧
     open_or_create_fresh.notifyDbg true NUM_TOPICS = none ∧
     (∃ c, open_or_create_fresh.writeRelease 1844674407370955162 3 [7] = some c)) :=
  ⟨⟨Nat.le_refl _, by decide⟩,
   out_of_range_topic_behavior open_or_create_fresh NUM_TOPICS 3 [7]
     (Nat.le_refl _) (by decide)⟩

end IpcBus
